import Mathlib

/-!
Verification development for the road-segment formatting pipeline
(`format_roads.py`, `get_roads.py`, `step_3_format_roads.py`, `add_areas.py`).

Coordinates are embedded as pairs of rationals; Python strings as lists of
characters; Python dicts that are only iterated as association lists in
iteration order.  Fallible code paths (list indexing that can raise
`IndexError`) are embedded as `Option`-valued functions, `none` marking the
raised exception.
-/

/-! ## Basic data -/

abbrev Point := ℚ × ℚ

abbrev PyStr := List Char

/-- A raw road segment as consumed by `combine_segments`: its `coordinates`
polyline and the value read by `segment.get('length', 0.0)`. -/
structure Segment where
  coordinates : List Point
  length : ℚ
deriving DecidableEq

instance : Inhabited Segment := ⟨⟨[], 0⟩⟩

/-- `calculate_distance` (src/format_roads.py:86) returns
`sqrt((x1-x2)^2 + (y1-y2)^2)`.  The distance value is only ever used in
order comparisons (`find_closest_segment` keeps the minimum; the value
returned from the stitching loop is discarded), and `sqrt` is strictly
monotone on nonnegative reals, so the embedding computes the squared
distance, which induces exactly the same comparisons. -/
def calculate_distance_sq (p q : Point) : ℚ :=
  (p.1 - q.1) ^ 2 + (p.2 - q.2) ^ 2

/-! ## find_closest_segment (src/format_roads.py:100, src/get_roads.py:171) -/

/-- The running best candidate of `find_closest_segment`: segment index,
whether the segment's last point was the closer end (`reversed` in the
source), and the (squared) minimal distance so far. -/
structure BestMatch where
  idx : Nat
  revFlag : Bool
  dsq : ℚ
deriving DecidableEq

/-- One `if dist < min_distance` update of `find_closest_segment`.  A `none`
accumulator is Python's initial `min_distance = inf`, `best_idx = None`
state: any finite distance beats it. -/
def fcsUpdate (idx : Nat) (revFlag : Bool) (d : ℚ) : Option BestMatch → Option BestMatch
  | none => some ⟨idx, revFlag, d⟩
  | some b => if d < b.dsq then some ⟨idx, revFlag, d⟩ else some b

/-- The `for idx, segment in enumerate(remaining_segments)` loop of
`find_closest_segment`.  `idx` is the index of the head of `segs` in the
original list.  Outer `none` embeds the `IndexError` raised by
`coords[0]` / `coords[-1]` on an unused segment with an empty coordinate
list. -/
def fcsAux (start : Point) (used : List Nat) :
    List Segment → Nat → Option BestMatch → Option (Option BestMatch)
  | [], _, acc => some acc
  | seg :: rest, idx, acc =>
    if idx ∈ used then
      fcsAux start used rest (idx + 1) acc
    else
      match seg.coordinates.head?, seg.coordinates.getLast? with
      | some fp, some lp =>
          fcsAux start used rest (idx + 1)
            (fcsUpdate idx true (calculate_distance_sq start lp)
              (fcsUpdate idx false (calculate_distance_sq start fp) acc))
      | _, _ => none

/-- `find_closest_segment(start_point, remaining_segments, used_indices)`.
Returns `some none` for Python's `(None, False, inf)` "no candidate" result
and `some (some b)` for a found candidate. -/
def find_closest_segment (start : Point) (segments : List Segment) (used : List Nat) :
    Option (Option BestMatch) :=
  fcsAux start used segments 0 none

/-! ## combine_segments (src/format_roads.py:141, src/get_roads.py:212) -/

/-- `list(reversed(coords)) if reversed_flag else coords`. -/
def dirCoords (seg : Segment) (revFlag : Bool) : List Point :=
  if revFlag then seg.coordinates.reverse else seg.coordinates

/-- The `while len(used_indices) < len(segments)` loop of `combine_segments`.
Fuel decreases every iteration; the wrapper passes `segments.length`, which
is enough because every iteration marks one more index used.  `none` embeds
an uncaught `IndexError` (`segment_list[-1][-1]` on an empty coordinate
array, or a crash inside `find_closest_segment`). -/
def combineLoop (segments : List Segment) :
    Nat → List (List Point) → ℚ → List Nat → Option (List (List Point) × ℚ)
  | 0, segList, total, used =>
      if used.length < segments.length then none else some (segList, total)
  | fuel + 1, segList, total, used =>
      if used.length < segments.length then
        match (segList.getLast?).bind List.getLast? with
        | none => none
        | some lastPoint =>
          match find_closest_segment lastPoint segments used with
          | none => none
          | some (some b) =>
              match segments[b.idx]? with
              | none => none
              | some seg =>
                  combineLoop segments fuel (segList ++ [dirCoords seg b.revFlag])
                    (total + seg.length) (b.idx :: used)
          | some none =>
            match (segList.head?).bind List.head? with
            | none => none
            | some firstPoint =>
              match find_closest_segment firstPoint segments used with
              | none => none
              | some (some b) =>
                  match segments[b.idx]? with
                  | none => none
                  | some seg =>
                      combineLoop segments fuel (dirCoords seg b.revFlag :: segList)
                        (total + seg.length) (b.idx :: used)
              | some none => some (segList, total)
      else some (segList, total)

/-- `combine_segments(segments)` from src/format_roads.py:141 (identical in
src/get_roads.py:212): returns the list of per-segment coordinate arrays in
stitched order together with the summed `length` fields. -/
def combine_segments (segments : List Segment) : Option (List (List Point) × ℚ) :=
  match segments with
  | [] => some ([], 0)
  | [s] => some ([s.coordinates], s.length)
  | s :: rest => combineLoop (s :: rest) (s :: rest).length [s.coordinates] s.length [0]

/-- Variant of `combineLoop` in which the fallback "no match from the end,
retry from the beginning and prepend" branch is cut: a `None` result of the
first `find_closest_segment` call terminates the loop directly.  Used to
state that the fallback branch of the source is unreachable. -/
def combineLoopNF (segments : List Segment) :
    Nat → List (List Point) → ℚ → List Nat → Option (List (List Point) × ℚ)
  | 0, segList, total, used =>
      if used.length < segments.length then none else some (segList, total)
  | fuel + 1, segList, total, used =>
      if used.length < segments.length then
        match (segList.getLast?).bind List.getLast? with
        | none => none
        | some lastPoint =>
          match find_closest_segment lastPoint segments used with
          | none => none
          | some (some b) =>
              match segments[b.idx]? with
              | none => none
              | some seg =>
                  combineLoopNF segments fuel (segList ++ [dirCoords seg b.revFlag])
                    (total + seg.length) (b.idx :: used)
          | some none => some (segList, total)
      else some (segList, total)

/-- `combine_segments` with the front-anchored fallback branch removed. -/
def combine_segments_noFallback (segments : List Segment) : Option (List (List Point) × ℚ) :=
  match segments with
  | [] => some ([], 0)
  | [s] => some ([s.coordinates], s.length)
  | s :: rest => combineLoopNF (s :: rest) (s :: rest).length [s.coordinates] s.length [0]

/-- The oriented coordinate array contributed by segment number `ib.1`,
reversed when `ib.2` is set. -/
def orientAt (segments : List Segment) (ib : Nat × Bool) : List Point :=
  dirCoords (segments.getD ib.1 default) ib.2

/-! ## Road-type extraction -/

/-- `ROAD_TYPES` (src/format_roads.py:14, src/get_roads.py:16). -/
def ROAD_TYPES : List PyStr :=
  (["Avenue", "Bay", "Boulevard", "Circle", "Court", "Cove", "Drive",
    "Expressway", "Lane", "Parkway", "Place", "Road", "Row", "Spur",
    "Street", "Way"]).map String.toList

/-- Python's `str.lower()` (the catalog and names here are ASCII). -/
def pyLower (s : PyStr) : PyStr := s.map Char.toLower

/-- `extract_road_type(road_name)` from src/format_roads.py:21 (identical in
src/get_roads.py:79): first catalog entry that matches as `' ' + entry`
suffix (exact case, then case-insensitively) or equals the whole name
case-insensitively; the *catalog* token is returned. -/
def extract_road_type (road_name : PyStr) : Option PyStr :=
  ROAD_TYPES.findSome? fun rt =>
    let sp := ' ' :: rt
    if sp.isSuffixOf road_name then some rt
    else if (pyLower sp).isSuffixOf (pyLower road_name) then some rt
    else if pyLower road_name = pyLower rt then some rt
    else none

/-- `common_types` of `extract_road_type` in src/step_3_format_roads.py:226. -/
def COMMON_TYPES : List PyStr :=
  (["Street", "Road", "Avenue", "Drive", "Lane", "Way", "Court", "Place",
    "Circle", "Boulevard", "Parkway", "Highway", "Trail", "Path", "Terrace",
    "Plaza", "Row", "Alley", "Walk", "Run", "Ridge", "Crossing", "Bend",
    "St", "Rd", "Ave", "Dr", "Ln", "Blvd", "Pkwy", "Hwy", "Cir", "Ct", "Pl"]).map String.toList

/-- `road_name.split()`: split on whitespace, dropping empty words (the road
names involved use only spaces as whitespace). -/
def pyWords (s : PyStr) : List PyStr :=
  (s.splitOn ' ').filter (· ≠ [])

/-- `extract_road_type(road_name)` from src/step_3_format_roads.py:215:
case-insensitive exact match of the *last word* against the catalog; the
word in the *name's* original casing is returned, `""` when nothing
matches. -/
def extract_road_type_step3 (road_name : PyStr) : PyStr :=
  (((pyWords road_name).getLast?).bind fun lastWord =>
    COMMON_TYPES.findSome? fun rt =>
      if pyLower lastWord = pyLower rt then some lastWord else none).getD []

/-! ## Name normalisation and the segment grouper filter -/

/-- A raw `name` value: a plain string or a list of strings (OSM multi-name
tags). -/
inductive RawName where
  | str (s : PyStr)
  | lst (l : List PyStr)
deriving DecidableEq

/-- The string `'Unknown'`. -/
def UNKNOWN : PyStr := "Unknown".toList

/-- `' / '`. -/
def NAME_SEP : PyStr := " / ".toList

/-- `sep.join(parts)`. -/
def joinSep (sep : PyStr) : List PyStr → PyStr
  | [] => []
  | [s] => s
  | s :: rest => s ++ sep ++ joinSep sep rest

/-- `normalize_road_name(name)` from src/format_roads.py:54 (identical in
src/get_roads.py:62): list names are joined with `' / '` after dropping
falsy entries; an empty result, or a falsy string, collapses to
`'Unknown'`. -/
def normalize_road_name : RawName → PyStr
  | .str s => if s = [] then UNKNOWN else s
  | .lst l =>
      let joined := joinSep NAME_SEP (l.filter (· ≠ []))
      if joined = [] then UNKNOWN else joined

/-- The per-segment keep/drop decision of `group_and_combine_roads`
(src/format_roads.py:213-221, src/get_roads.py:326-334): read
`segment.get('name', 'Unknown')`, normalise, then keep only when the result
is truthy, differs from `'Unknown'` and is not `'unnamed'`
case-insensitively. -/
def keeps_segment (rawName : Option RawName) : Bool :=
  let road_name := normalize_road_name (rawName.getD (.str UNKNOWN))
  road_name ≠ [] && road_name ≠ UNKNOWN && pyLower road_name ≠ "unnamed".toList

/-! ## Size classification -/

def smallStr : PyStr := "small".toList
def mediumStr : PyStr := "medium".toList
def bigStr : PyStr := "big".toList
def largeStr : PyStr := "large".toList

/-- `calculate_size_categories(formatted_roads)` from src/get_roads.py:271.
The input dict is embedded as its `(name, length)` items in iteration
order; Python's stable `list.sort(key=lambda x: x[1])` is embedded as the
(equally stable) insertion sort on the length component.  The returned dict
is embedded as the name-to-category pairs in sorted-rank order. -/
def calculate_size_categories (formatted_roads : List (PyStr × ℚ)) : List (PyStr × PyStr) :=
  if formatted_roads = [] then []
  else
    let road_lengths := formatted_roads.insertionSort (fun a b => a.2 ≤ b.2)
    let total_roads := road_lengths.length
    let small_count := total_roads / 3
    let medium_count := total_roads / 3
    road_lengths.enum.map fun inl =>
      (inl.2.1,
        if inl.1 < small_count then smallStr
        else if inl.1 < small_count + medium_count then mediumStr
        else bigStr)

/-- `determine_size(length)` from src/step_3_format_roads.py:247: fixed
absolute thresholds, not percentiles. -/
def determine_size (length : ℚ) : PyStr :=
  if length < 500 then smallStr
  else if length < 1000 then mediumStr
  else largeStr

/-! ## Length over coordinates (src/step_3_format_roads.py:176) -/

/-- `calculate_segment_length(coordinates)` from
src/step_3_format_roads.py:176.  `haversine_distance` involves
transcendental functions (`sin`, `cos`, `asin`, `sqrt`), so it is taken as
a parameter `hav`; the guard behaviour under scrutiny (`len < 2` returns
`0.0` with no error) is independent of it. -/
def calculate_segment_length (hav : Point → Point → ℚ) (coordinates : List Point) : ℚ :=
  if coordinates.length < 2 then 0
  else ((coordinates.zip coordinates.tail).foldl (fun acc pq => acc + hav pq.1 pq.2) 0)

/-! ## Point-in-polygon, hand-rolled (src/step_3_format_roads.py:64) -/

/-- The toggle condition of one loop iteration of `point_in_polygon`
(src/step_3_format_roads.py:84-90), for point `pt` and edge `p1`-`p2`.  The
nested `if`s of the source are an `∧`-chain; the division is reached only
under `p1_lat != p2_lat` exactly as in the source (and is total on `ℚ`
anyway). -/
def pipToggle (pt p1 p2 : Point) : Bool :=
  decide (min p1.2 p2.2 < pt.2 ∧ pt.2 ≤ max p1.2 p2.2 ∧ pt.1 ≤ max p1.1 p2.1 ∧
    p1.2 ≠ p2.2 ∧
    (p1.1 = p2.1 ∨ pt.1 ≤ (pt.2 - p1.2) * (p2.1 - p1.1) / (p2.2 - p1.2) + p1.1))

/-- `point_in_polygon(point, polygon_coords)` from
src/step_3_format_roads.py:64.  The Python loop runs `n + 1` iterations
with `p1` starting at `coords[0]` and `p2 = coords[i % n]`, i.e. over the
edge sequence `(c0,c0), (c0,c1), …, (c(n-1),c0)`; `none` embeds the
`IndexError`/`ZeroDivisionError` on an empty ring. -/
def point_in_polygon (pt : Point) (ring : List Point) : Option Bool :=
  match ring with
  | [] => none
  | c0 :: rest =>
      some (((c0 :: c0 :: rest).zip ((c0 :: rest) ++ [c0])).foldl
        (fun ins e => if pipToggle pt e.1 e.2 then !ins else ins) false)

/-! ## Area geometry and the two membership resolvers -/

abbrev PolyRing := List Point

/-- A GeoJSON geometry as read by `get_areas_for_coordinates`
(src/step_3_format_roads.py:97): a `Polygon` (list of rings, the first
being the outer boundary) or a `MultiPolygon` (list of polygons). -/
inductive Geometry where
  | polygon (rings : List PolyRing)
  | multipolygon (polys : List (List PolyRing))
deriving DecidableEq

/-- The `for coord in segment` scan with `break` on the first hit; `none`
embeds the crash of `point_in_polygon` on an empty ring. -/
def pointsAny (ring : List Point) : List Point → Option Bool
  | [] => some false
  | pt :: rest =>
      match point_in_polygon pt ring with
      | none => none
      | some true => some true
      | some false => pointsAny ring rest

/-- The `for segment in coordinates` scan with `break` on the first hit. -/
def chainsAny (ring : List Point) : List (List Point) → Option Bool
  | [] => some false
  | seg :: rest =>
      match pointsAny ring seg with
      | none => none
      | some true => some true
      | some false => chainsAny ring rest

/-- The `for polygon in geometry['coordinates']` scan of the MultiPolygon
branch: `polygon[0]` is read before scanning, so an empty polygon crashes
unless an earlier polygon already matched. -/
def multiAny (coordinates : List (List Point)) : List (List PolyRing) → Option Bool
  | [] => some false
  | poly :: rest =>
      match poly with
      | [] => none
      | r0 :: _ =>
          match chainsAny r0 coordinates with
          | none => none
          | some true => some true
          | some false => multiAny coordinates rest

/-- Whether a geometry contains some coordinate of the road, as computed by
the body of `get_areas_for_coordinates` for one area. -/
def geomContains (coordinates : List (List Point)) : Geometry → Option Bool
  | .polygon rings =>
      match rings with
      | [] => none
      | r0 :: _ => chainsAny r0 coordinates
  | .multipolygon polys => multiAny coordinates polys

/-- The `for area_name, geometry in areas.items()` loop: collect matching
names in iteration order, propagating crashes. -/
def gafcAux (coordinates : List (List Point)) :
    List (PyStr × Geometry) → Option (List PyStr)
  | [] => some []
  | ag :: rest =>
      match geomContains coordinates ag.2 with
      | none => none
      | some true => (gafcAux coordinates rest).map (ag.1 :: ·)
      | some false => gafcAux coordinates rest

/-- `get_areas_for_coordinates(coordinates, areas)` from
src/step_3_format_roads.py:97: a set of matching names, returned as
`sorted(list(found_areas))`. -/
def get_areas_for_coordinates (coordinates : List (List Point))
    (areas : List (PyStr × Geometry)) : Option (List PyStr) :=
  (gafcAux coordinates areas).map fun l =>
    List.insertionSort (· ≤ ·) l.dedup

/-- Modelled from the spec: `polygon.contains(point)` of the external
shapely library, used by `check_road_in_area` (src/add_areas.py:84) — the
library's code is not part of this repository.  Shapely's `contains` holds
exactly when the point lies in the polygon's *interior*; for a simple ring
this is modelled as: the point is not on the boundary, and the even-odd
crossing count of a rightward horizontal ray (the standard strict
crossing rule) is odd.  `onSegmentB` decides membership of the closed edge
segment; `ringEdges` closes the ring implicitly. -/
def onSegmentB (q a b : Point) : Bool :=
  decide ((b.1 - a.1) * (q.2 - a.2) = (b.2 - a.2) * (q.1 - a.1) ∧
    min a.1 b.1 ≤ q.1 ∧ q.1 ≤ max a.1 b.1 ∧ min a.2 b.2 ≤ q.2 ∧ q.2 ≤ max a.2 b.2)

/-- The edges of a ring, closing it back to its first vertex. -/
def ringEdges (ring : PolyRing) : List (Point × Point) :=
  match ring with
  | [] => []
  | c :: rest => (c :: rest).zip (rest ++ [c])

/-- Whether the point lies on the ring (the polygon's boundary). -/
def onBoundary (q : Point) (ring : PolyRing) : Bool :=
  (ringEdges ring).any fun e => onSegmentB q e.1 e.2

/-- One edge of the strict even-odd crossing rule (part of the shapely
`contains` model). -/
def crossingToggle (pt a b : Point) : Bool :=
  (decide (pt.2 < a.2) != decide (pt.2 < b.2)) &&
    decide (pt.1 < (b.1 - a.1) * (pt.2 - a.2) / (b.2 - a.2) + a.1)

/-- Even-odd inside test with the strict crossing rule (part of the shapely
`contains` model). -/
def raycastStrict (pt : Point) (ring : PolyRing) : Bool :=
  (ringEdges ring).foldl (fun ins e => if crossingToggle pt e.1 e.2 then !ins else ins) false

/-- Modelled from the spec: shapely `polygon.contains(point)` — strict
interior membership (see `onSegmentB`). -/
def shapely_contains (pt : Point) (ring : PolyRing) : Bool :=
  !(onBoundary pt ring) && raycastStrict pt ring

/-- `check_road_in_area(road_data, polygon)` from src/add_areas.py:84: some
coordinate of some segment is (shapely-)contained in the area polygon,
built from the ring `ring`. -/
def check_road_in_area (coordinates : List (List Point)) (ring : PolyRing) : Bool :=
  coordinates.any fun seg => seg.any fun c => shapely_contains c ring

/-- The effect of `add_areas_to_roads` (src/add_areas.py:107) on *one* road
for one polygon collection: starting from the road's current list
(`initial`, `[]` right after initialisation), every matching area name is
appended in the polygon mapping's iteration order unless already
present. -/
def add_areas_to_road (coordinates : List (List Point)) (initial : List PyStr)
    (areas : List (PyStr × PolyRing)) : List PyStr :=
  areas.foldl
    (fun acc a =>
      if check_road_in_area coordinates a.2 then
        if a.1 ∈ acc then acc else acc ++ [a.1]
      else acc)
    initial

/-! ## Concrete data used by the claims -/

/-- The `"Oak Avenue"` three-segment group of the end-to-end scenario, in
bucket order, with symbolic `length` fields. -/
def oakSegs (l1 l2 l3 : ℚ) : List Segment :=
  [⟨[(0, 0), (1, 0)], l1⟩, ⟨[(2, 0), (1, 0)], l2⟩, ⟨[(2, 0), (3, 0)], l3⟩]

def oakName : PyStr := "Oak Avenue".toList
def avenueStr : PyStr := "Avenue".toList

/-- The unit-square ring of spec §8. -/
def unitSquare : PolyRing := [(0, 0), (1, 0), (1, 1), (0, 1)]

def aName : PyStr := "a".toList
def bName : PyStr := "b".toList

/-- Whether ring vertex `v` lies on the rightward horizontal ray from `pt`,
strictly to its right.  This is the pivot quantity when comparing the two
crossing rules: they differ per edge exactly by this indicator at the
edge's endpoints. -/
def vertexRay (pt v : Point) : Bool := decide (v.2 = pt.2 ∧ pt.1 < v.1)

/-- Exclusive-or of a list of booleans: the parity kept by the two
even-odd folds. -/
def xorSum (l : List Bool) : Bool := l.foldl Bool.xor false

/-! ## Claim theorems: concrete scenarios -/

/-- C1 (counterexample).  On the `"Oak Avenue"` group (bucket order, lengths
1, 2, 4), `combine_segments` keeps the three segments as three separate
coordinate arrays in stitched order — the second reversed — and does **not**
merge them into a single deduplicated chain `[(0,0),(1,0),(2,0),(3,0)]`. -/
theorem oak_avenue_not_single_chain :
    combine_segments (oakSegs 1 2 4) =
      some ([[(0, 0), (1, 0)], [(1, 0), (2, 0)], [(2, 0), (3, 0)]], 7) ∧
    ([[(0, 0), (1, 0)], [(1, 0), (2, 0)], [(2, 0), (3, 0)]] : List (List Point)) ≠
      [[(0, 0), (1, 0), (2, 0), (3, 0)]] := by
  constructor
  · norm_num [combine_segments, combineLoop, find_closest_segment, fcsAux, fcsUpdate,
      calculate_distance_sq, dirCoords, oakSegs]
  · decide

/-- C1 (amended).  For any length fields `l1 l2 l3`, the `"Oak Avenue"`
group stitches into the ordered per-segment arrays
`[(0,0),(1,0)]`, `[(1,0),(2,0)]` (the second segment reversed) and
`[(2,0),(3,0)]` — connected in order but kept as separate arrays with the
coincident join points retained — with total length `l1 + l2 + l3`, and
`extract_road_type` classifies the name as `"Avenue"`. -/
theorem oak_avenue_stitch (l1 l2 l3 : ℚ) :
    combine_segments (oakSegs l1 l2 l3) =
      some ([[(0, 0), (1, 0)], [(1, 0), (2, 0)], [(2, 0), (3, 0)]], l1 + l2 + l3) ∧
    extract_road_type oakName = some avenueStr := by
  constructor
  · norm_num [combine_segments, combineLoop, find_closest_segment, fcsAux, fcsUpdate,
      calculate_distance_sq, dirCoords, oakSegs]
  · decide

/-- C5 (counterexample).  Segments with fewer than 2 coordinate points are
not rejected: a one-point segment is returned as-is by `combine_segments`
(alone and inside a two-segment group), and `calculate_segment_length`
silently returns `0.0` for it instead of raising a descriptive error. -/
theorem malformed_segment_processed_counterexample :
    combine_segments [⟨[(0, 0)], 5⟩] = some ([[(0, 0)]], 5) ∧
    combine_segments [⟨[(0, 0)], 1⟩, ⟨[(0, 0), (1, 1)], 2⟩] =
      some ([[(0, 0)], [(0, 0), (1, 1)]], 3) ∧
    calculate_segment_length (fun _ _ => 0) [(0, 0)] = 0 := by
  refine ⟨?_, ?_, by decide⟩ <;>
    norm_num [combine_segments, combineLoop, find_closest_segment, fcsAux, fcsUpdate,
      calculate_distance_sq, dirCoords]

/-- C5 (amended).  The core performs no boundary validation of segment
coordinates: `calculate_segment_length` returns `0.0` for any
single-point list, `combine_segments` silently passes through a
zero-point or one-point segment in a singleton group, and an empty
coordinate list in a multi-segment group only surfaces as an uninformative
index error (`none`) in the middle of stitching, not as a descriptive
boundary rejection. -/
theorem malformed_segment_behavior :
    (∀ (hav : Point → Point → ℚ) (p : Point), calculate_segment_length hav [p] = 0) ∧
    combine_segments [⟨[], 3⟩] = some ([[]], 3) ∧
    combine_segments [⟨[(0, 0)], 5⟩] = some ([[(0, 0)]], 5) ∧
    combine_segments [⟨[], 1⟩, ⟨[(0, 0), (1, 0)], 2⟩] = none := by
  refine ⟨fun hav p => rfl, by rfl, by rfl, ?_⟩
  norm_num [combine_segments, combineLoop]

/-- C6 (counterexample).  `determine_size` (src/step_3_format_roads.py:247)
classifies by the absolute thresholds 500 and 1000, not by sorted-rank
tertiles: for the six distinct ascending lengths 100..600 it returns four
`small` and two `medium`, not the 2 `small` / 2 `medium` / 2 top claimed. -/
theorem determine_size_not_tertile :
    ([100, 200, 300, 400, 500, 600] : List ℚ).map determine_size =
      [smallStr, smallStr, smallStr, smallStr, mediumStr, mediumStr] ∧
    [smallStr, smallStr, smallStr, smallStr, mediumStr, mediumStr] ≠
      [smallStr, smallStr, mediumStr, mediumStr, largeStr, largeStr] := by
  refine ⟨by rfl, by decide⟩

/-- C6 (amended).  `calculate_size_categories` (src/get_roads.py:271) sorts
the roads by length ascending and assigns the bottom `n / 3` to `small`,
the next `n / 3` to `medium`, and the remainder to the top bucket (labelled
`big`): six distinctly-lengthed roads split 2/2/2 and four split 1/1/2,
whatever the input order; `determine_size` instead uses fixed thresholds. -/
theorem calculate_size_categories_tertiles :
    calculate_size_categories
        [("r1".toList, 30), ("r2".toList, 10), ("r3".toList, 60),
         ("r4".toList, 20), ("r5".toList, 50), ("r6".toList, 40)] =
      [("r2".toList, smallStr), ("r4".toList, smallStr),
       ("r1".toList, mediumStr), ("r6".toList, mediumStr),
       ("r5".toList, bigStr), ("r3".toList, bigStr)] ∧
    calculate_size_categories
        [("r1".toList, 30), ("r2".toList, 10), ("r3".toList, 40), ("r4".toList, 20)] =
      [("r2".toList, smallStr), ("r4".toList, mediumStr),
       ("r1".toList, bigStr), ("r3".toList, bigStr)] := by
  refine ⟨by decide, by decide⟩

/-- C7 (counterexample).  The `extract_road_type` of
src/format_roads.py:21 returns the *catalog* spelling on a
case-insensitive match: `"MAIN STREET"` yields `"Street"`, not the
original-cased token `"STREET"` the claim requires. -/
theorem extract_road_type_catalog_casing_counterexample :
    extract_road_type ("MAIN STREET".toList) = some ("Street".toList) ∧
    ("Street".toList : PyStr) ≠ "STREET".toList := by
  refine ⟨by rfl, by decide⟩

/-- C7 (amended).  Only the step_3 variant preserves the name's original
casing of the matched token (`"MAIN STREET"` gives `"STREET"`,
`"Main street"` gives `"street"`); the format_roads/get_roads variant
returns the catalog spelling (`"MAIN STREET"` gives `"Street"`), agreeing
with the original casing only when the name already ends in the catalog
spelling (`"Main Street"` gives `"Street"`). -/
theorem road_type_casing_amended :
    extract_road_type_step3 ("MAIN STREET".toList) = "STREET".toList ∧
    extract_road_type_step3 ("Main street".toList) = "street".toList ∧
    extract_road_type ("MAIN STREET".toList) = some ("Street".toList) ∧
    extract_road_type ("Main Street".toList) = some ("Street".toList) := by
  refine ⟨by rfl, by rfl, by rfl, by rfl⟩

/-- C8 (confirmed).  The classifier of src/format_roads.py:21 is
right-anchored and never lets a shorter embedded token beat the real
suffix: `"Circle Road"` resolves to `"Road"` (not `"Circle"`),
`"Broadway Parkway"` to `"Parkway"` (not `"Way"`), `"Main Street"` to
`"Street"`, and `"No Match Here"` to nothing. -/
theorem extract_road_type_right_anchored :
    extract_road_type ("Circle Road".toList) = some ("Road".toList) ∧
    extract_road_type ("Broadway Parkway".toList) = some ("Parkway".toList) ∧
    extract_road_type ("Main Street".toList) = some ("Street".toList) ∧
    extract_road_type ("No Match Here".toList) = none := by
  refine ⟨by rfl, by rfl, by rfl, by rfl⟩

/-- C10 (confirmed).  A missing, empty or empty-list name normalises to the
literal `'Unknown'` and is dropped by the grouper filter; a road genuinely
named `"Unknown"` collides with the sentinel and is dropped too, while a
lowercase `"unknown"` survives the (case-sensitive) sentinel test and the
case-insensitive `'unnamed'` test and is kept. -/
theorem unknown_sentinel_collision :
    keeps_segment none = false ∧
    keeps_segment (some (.str [])) = false ∧
    keeps_segment (some (.lst [])) = false ∧
    normalize_road_name (.str []) = UNKNOWN ∧
    normalize_road_name (.lst []) = UNKNOWN ∧
    keeps_segment (some (.str ("Unknown".toList))) = false ∧
    keeps_segment (some (.str ("unknown".toList))) = true := by
  refine ⟨by rfl, by rfl, by rfl, by rfl, by rfl, by rfl, by rfl⟩

/-- C3 (counterexample).  `add_areas_to_roads` (src/add_areas.py:107)
appends matching area names in the polygon mapping's iteration order: with
the areas iterated as `b` then `a` (both containing the road point
`(1/2, 1/2)`), the road's list comes out `["b", "a"]`, which is not sorted
ascending. -/
theorem add_areas_order_counterexample :
    add_areas_to_road [[(1/2, 1/2)]] [] [(bName, unitSquare), (aName, unitSquare)] =
      [bName, aName] ∧
    ¬ List.Sorted (· ≤ ·) [bName, aName] := by
  constructor
  · norm_num [add_areas_to_road, check_road_in_area, shapely_contains, onBoundary,
      onSegmentB, ringEdges, raycastStrict, crossingToggle, unitSquare, aName, bName]
    decide
  · intro h
    have hba := List.rel_of_sorted_cons h aName (by simp)
    revert hba
    decide

/-- C4 (counterexample).  The boundary point `(1, 1/2)` of the unit square
is classified inside by the hand-rolled ray-casting
`point_in_polygon` (src/step_3_format_roads.py:64) but not contained by
the shapely model used by `check_road_in_area` (src/add_areas.py:84), so
the two code paths assign different area sets to a road consisting of that
single point. -/
theorem pip_shapely_boundary_counterexample :
    point_in_polygon (1, 1/2) unitSquare = some true ∧
    shapely_contains (1, 1/2) unitSquare = false ∧
    check_road_in_area [[(1, 1/2)]] unitSquare = false ∧
    get_areas_for_coordinates [[(1, 1/2)]] [(aName, .polygon [unitSquare])] =
      some [aName] := by
  refine ⟨?_, ?_, ?_, ?_⟩ <;>
    norm_num [point_in_polygon, pipToggle, unitSquare, shapely_contains, onBoundary,
      onSegmentB, ringEdges, raycastStrict, crossingToggle, check_road_in_area,
      get_areas_for_coordinates, gafcAux, geomContains, chainsAny, pointsAny,
      List.insertionSort, List.orderedInsert, List.dedup, aName]

/-! ## Structural lemmas about `find_closest_segment` and the stitching loop -/

/-- A single minimum-update always yields a candidate, either the old one or
one at the scanned index. -/
theorem fcsUpdate_some (idx : Nat) (r : Bool) (d : ℚ) (acc : Option BestMatch) :
    ∃ b, fcsUpdate idx r d acc = some b ∧ (acc = some b ∨ b.idx = idx) := by
  cases acc with
  | none => exact ⟨_, rfl, Or.inr rfl⟩
  | some b0 =>
      by_cases h : d < b0.dsq
      · exact ⟨⟨idx, r, d⟩, by simp [fcsUpdate, h], Or.inr rfl⟩
      · exact ⟨b0, by simp [fcsUpdate, h], Or.inl rfl⟩

/-- Scanning never crashes when all segments have coordinates, only returns
unused in-range indices, and returns a candidate as soon as some unused
index is in range (or one was already accumulated). -/
theorem fcsAux_spec (start : Point) (used : List Nat) :
    ∀ (segs : List Segment) (idx : Nat) (acc : Option BestMatch),
      (∀ s ∈ segs, s.coordinates ≠ []) →
      (∀ b, acc = some b → b.idx ∉ used ∧ b.idx < idx) →
      ∃ a, fcsAux start used segs idx acc = some a ∧
        (∀ b, a = some b → b.idx ∉ used ∧ b.idx < idx + segs.length) ∧
        (((∃ b, acc = some b) ∨ ∃ j, j < segs.length ∧ (idx + j) ∉ used) →
          ∃ b, a = some b) := by
  intro segs
  induction segs with
  | nil =>
      intro idx acc hc hacc
      refine ⟨acc, rfl, ?_, ?_⟩
      · intro b hb
        obtain ⟨h1, h2⟩ := hacc b hb
        exact ⟨h1, by omega⟩
      · rintro (⟨b, hb⟩ | ⟨j, hj, -⟩)
        · exact ⟨b, hb⟩
        · exact absurd hj (by simp)
  | cons seg rest ih =>
      intro idx acc hc hacc
      by_cases hmem : idx ∈ used
      · have hc' : ∀ s ∈ rest, s.coordinates ≠ [] :=
          fun s hs => hc s (List.mem_cons_of_mem _ hs)
        have hacc' : ∀ b, acc = some b → b.idx ∉ used ∧ b.idx < idx + 1 :=
          fun b hb => ⟨(hacc b hb).1, Nat.lt_succ_of_lt (hacc b hb).2⟩
        obtain ⟨a, ha, h2, h3⟩ := ih (idx + 1) acc hc' hacc'
        refine ⟨a, by simpa [fcsAux, hmem] using ha, ?_, ?_⟩
        · intro b hb
          obtain ⟨hb1, hb2⟩ := h2 b hb
          exact ⟨hb1, by simp only [List.length_cons]; omega⟩
        · rintro (hsome | ⟨j, hj, hju⟩)
          · exact h3 (Or.inl hsome)
          · rcases j with _ | j'
            · exact absurd hmem (by simpa using hju)
            · refine h3 (Or.inr ⟨j', by simp only [List.length_cons] at hj; omega, ?_⟩)
              have : idx + (j' + 1) = idx + 1 + j' := by omega
              rw [this] at hju
              exact hju
      · have hne : seg.coordinates ≠ [] := hc seg (List.mem_cons_self _ _)
        obtain ⟨fp, hfp⟩ : ∃ fp, seg.coordinates.head? = some fp := by
          cases hcoords : seg.coordinates with
          | nil => exact absurd hcoords hne
          | cons a l => exact ⟨a, by simp⟩
        obtain ⟨lp, hlp⟩ : ∃ lp, seg.coordinates.getLast? = some lp := by
          cases hl : seg.coordinates.getLast? with
          | none => exact absurd (List.getLast?_eq_none_iff.mp hl) hne
          | some a => exact ⟨a, rfl⟩
        obtain ⟨b1, hb1, hb1p⟩ :=
          fcsUpdate_some idx false (calculate_distance_sq start fp) acc
        obtain ⟨b2, hb2, hb2p⟩ :=
          fcsUpdate_some idx true (calculate_distance_sq start lp) (some b1)
        have hb1prop : b1.idx ∉ used ∧ b1.idx < idx + 1 := by
          rcases hb1p with h | h
          · exact ⟨(hacc b1 h).1, Nat.lt_succ_of_lt (hacc b1 h).2⟩
          · rw [h]; exact ⟨hmem, Nat.lt_succ_self idx⟩
        have hb2prop : b2.idx ∉ used ∧ b2.idx < idx + 1 := by
          rcases hb2p with h | h
          · obtain rfl : b1 = b2 := Option.some.inj h
            exact hb1prop
          · rw [h]; exact ⟨hmem, Nat.lt_succ_self idx⟩
        have hc' : ∀ s ∈ rest, s.coordinates ≠ [] :=
          fun s hs => hc s (List.mem_cons_of_mem _ hs)
        obtain ⟨a, ha, h2, h3⟩ := ih (idx + 1) (some b2)
          hc' (fun b hb => by obtain rfl : b2 = b := Option.some.inj hb; exact hb2prop)
        have hstep : fcsAux start used (seg :: rest) idx acc =
            fcsAux start used rest (idx + 1)
              (fcsUpdate idx true (calculate_distance_sq start lp)
                (fcsUpdate idx false (calculate_distance_sq start fp) acc)) := by
          simp [fcsAux, hmem, hfp, hlp]
        refine ⟨a, ?_, ?_, fun _ => h3 (Or.inl ⟨b2, rfl⟩)⟩
        · rw [hstep, hb1, hb2]; exact ha
        · intro b hb
          obtain ⟨hbu, hbn⟩ := h2 b hb
          exact ⟨hbu, by simp only [List.length_cons]; omega⟩

/-- When every segment has a nonempty coordinate list and some index is
still unused, `find_closest_segment` returns a candidate, whose index is
unused and in range. -/
theorem find_closest_spec (start : Point) (segments : List Segment) (used : List Nat)
    (hc : ∀ s ∈ segments, s.coordinates ≠ [])
    (hu : ∃ i, i < segments.length ∧ i ∉ used) :
    ∃ b, find_closest_segment start segments used = some (some b) ∧
      b.idx ∉ used ∧ b.idx < segments.length := by
  obtain ⟨i, hi, hiu⟩ := hu
  obtain ⟨a, ha, h2, h3⟩ := fcsAux_spec start used segments 0 none hc (by simp)
  obtain ⟨b, hb⟩ := h3 (Or.inr ⟨i, hi, by simpa using hiu⟩)
  subst hb
  obtain ⟨hbu, hbn⟩ := h2 b rfl
  exact ⟨b, by simpa [find_closest_segment] using ha, hbu, by simpa using hbn⟩

/-- A duplicate-free list of indices below `n` that is shorter than `n`
misses some index below `n`. -/
theorem exists_unused (n : Nat) (used : List Nat)
    (hlen : used.length < n) :
    ∃ i, i < n ∧ i ∉ used := by
  by_contra h
  push_neg at h
  have hsub : (List.range n) ⊆ used := fun i hi => h i (List.mem_range.mp hi)
  have := (List.subperm_of_subset (List.nodup_range n) hsub).length_le
  simp only [List.length_range] at this
  omega

/-- A duplicate-free list of indices below `n` of length at least `n` is a
permutation of `range n`. -/
theorem perm_range_of_nodup (n : Nat) (used : List Nat) (hnd : used.Nodup)
    (hbd : ∀ i ∈ used, i < n) (hlen : n ≤ used.length) :
    used.Perm (List.range n) := by
  have h1 : used ⊆ List.range n := fun i hi => List.mem_range.mpr (hbd i hi)
  have hsp := List.subperm_of_subset hnd h1
  exact hsp.perm_of_length_le (by simpa using hlen)

/-- Main loop invariant: starting from a duplicate-free in-range used set
matching the accumulated chain list, the stitching loop terminates without
error and its output is exactly the input segments — each used once — in
some order, each forward or reversed. -/
theorem combineLoop_spec (segments : List Segment)
    (hc : ∀ s ∈ segments, s.coordinates ≠ []) :
    ∀ (fuel : Nat) (segList : List (List Point)) (total : ℚ) (used : List Nat),
      used.Nodup →
      (∀ i ∈ used, i < segments.length) →
      segments.length ≤ fuel + used.length →
      segList ≠ [] →
      (∀ c ∈ segList, c ≠ []) →
      (∃ orient : List (Nat × Bool), (orient.map Prod.fst).Perm used ∧
        segList = orient.map (orientAt segments)) →
      ∃ (out : List (List Point)) (total' : ℚ) (orient : List (Nat × Bool)),
        combineLoop segments fuel segList total used = some (out, total') ∧
        (orient.map Prod.fst).Perm (List.range segments.length) ∧
        out = orient.map (orientAt segments) := by
  intro fuel
  induction fuel with
  | zero =>
      rintro segList total used hnd hbd hfl hsne hcs ⟨orient, hperm, hform⟩
      have hguard : ¬ used.length < segments.length := by omega
      refine ⟨segList, total, orient, ?_, ?_, hform⟩
      · simp [combineLoop, hguard]
      · exact hperm.trans (perm_range_of_nodup _ _ hnd hbd (by omega))
  | succ fuel ih =>
      rintro segList total used hnd hbd hfl hsne hcs ⟨orient, hperm, horient⟩
      by_cases hguard : used.length < segments.length
      · obtain ⟨L, hL⟩ : ∃ L, segList.getLast? = some L := by
          cases h : segList.getLast? with
          | none => exact absurd (List.getLast?_eq_none_iff.mp h) hsne
          | some a => exact ⟨a, rfl⟩
        have hLne : L ≠ [] := hcs L (List.mem_of_getLast?_eq_some hL)
        obtain ⟨lp, hlp⟩ : ∃ lp, L.getLast? = some lp := by
          cases h : L.getLast? with
          | none => exact absurd (List.getLast?_eq_none_iff.mp h) hLne
          | some a => exact ⟨a, rfl⟩
        obtain ⟨b, hfc, hbu, hbn⟩ := find_closest_spec lp segments used hc
          (exists_unused _ _ hguard)
        have hget : segments[b.idx]? = some segments[b.idx] := List.getElem?_eq_getElem hbn
        have hmemseg : segments[b.idx] ∈ segments := List.getElem_mem hbn
        have hnewne : dirCoords segments[b.idx] b.revFlag ≠ [] := by
          have := hc _ hmemseg
          cases b.revFlag <;> simpa [dirCoords] using this
        have hstep : combineLoop segments (fuel + 1) segList total used =
            combineLoop segments fuel (segList ++ [dirCoords segments[b.idx] b.revFlag])
              (total + segments[b.idx].length) (b.idx :: used) := by
          simp [combineLoop, hguard, hL, hlp, hfc, hget]
        obtain ⟨out, total', orient', hrun, hperm', hform'⟩ :=
          ih (segList ++ [dirCoords segments[b.idx] b.revFlag])
            (total + segments[b.idx].length) (b.idx :: used)
            (List.nodup_cons.mpr ⟨hbu, hnd⟩)
            (by rintro i hi
                rcases List.mem_cons.mp hi with rfl | hi
                exacts [hbn, hbd i hi])
            (by simp only [List.length_cons]; omega)
            (by simp)
            (by intro c hcmem
                rcases List.mem_append.mp hcmem with h | h
                · exact hcs c h
                · simp only [List.mem_singleton] at h
                  subst h
                  exact hnewne)
            ⟨orient ++ [(b.idx, b.revFlag)], by
                rw [List.map_append]
                exact (hperm.append_right _).trans (List.perm_append_singleton _ _), by
                rw [List.map_append, ← horient]
                simp [orientAt, List.getD_eq_getElem?_getD, hget]⟩
        exact ⟨out, total', orient', by rw [hstep]; exact hrun, hperm', hform'⟩
      · refine ⟨segList, total, orient, ?_,
          hperm.trans (perm_range_of_nodup _ _ hnd hbd (by omega)), horient⟩
        simp [combineLoop, hguard]

/-- C2 (confirmed).  For every non-empty group of segments with non-empty
coordinate lists, `combine_segments` succeeds, and its output consists of
exactly one coordinate array per input segment: there is an orientation
assignment `orient` whose indices are a permutation of all segment indices
(nothing dropped, nothing duplicated) such that each output array is the
corresponding input segment's coordinate list, as-is or reversed — no point
added, removed or altered. -/
theorem combine_segments_accounts_all (segments : List Segment)
    (hne : segments ≠ []) (hc : ∀ s ∈ segments, s.coordinates ≠ []) :
    ∃ (out : List (List Point)) (total : ℚ) (orient : List (Nat × Bool)),
      combine_segments segments = some (out, total) ∧
      (orient.map Prod.fst).Perm (List.range segments.length) ∧
      out = orient.map (orientAt segments) := by
  match segments, hne with
  | [s], _ =>
      refine ⟨[s.coordinates], s.length, [(0, false)], rfl, ?_, ?_⟩
      · simp [List.range_succ]
      · simp [orientAt, dirCoords]
  | s1 :: s2 :: rest, _ =>
      obtain ⟨out, total, orient, hrun, hperm, hform⟩ :=
        combineLoop_spec (s1 :: s2 :: rest) hc (s1 :: s2 :: rest).length
          [s1.coordinates] s1.length [0]
          (by simp) (by simp) (by simp) (by simp)
          (by intro c hcm
              simp only [List.mem_singleton] at hcm
              subst hcm
              exact hc s1 (by simp))
          ⟨[(0, false)], by simp, by simp [orientAt, dirCoords]⟩
      exact ⟨out, total, orient, hrun, hperm, hform⟩

/-- Witness for C2 at the concrete `"Oak Avenue"` group. -/
theorem combine_segments_accounts_all_witness :
    ∃ (out : List (List Point)) (total : ℚ) (orient : List (Nat × Bool)),
      combine_segments (oakSegs 1 2 4) = some (out, total) ∧
      (orient.map Prod.fst).Perm (List.range (oakSegs 1 2 4).length) ∧
      out = orient.map (orientAt (oakSegs 1 2 4)) :=
  combine_segments_accounts_all (oakSegs 1 2 4) (by simp [oakSegs]) (by
    intro s hs
    simp only [oakSegs, List.mem_cons, List.not_mem_nil, or_false] at hs
    rcases hs with rfl | rfl | rfl <;> simp)

/-- The stitching loop coincides with its fallback-free variant whenever
the segments have coordinates: the first anchored search always finds a
candidate while unused segments remain, so the prepend branch never runs. -/
theorem combineLoop_eq_NF (segments : List Segment)
    (hc : ∀ s ∈ segments, s.coordinates ≠ []) :
    ∀ (fuel : Nat) (segList : List (List Point)) (total : ℚ) (used : List Nat),
      used.Nodup → (∀ i ∈ used, i < segments.length) →
      combineLoop segments fuel segList total used =
        combineLoopNF segments fuel segList total used := by
  intro fuel
  induction fuel with
  | zero => intro segList total used _ _; rfl
  | succ fuel ih =>
      intro segList total used hnd hbd
      by_cases hguard : used.length < segments.length
      · cases hbind : (segList.getLast?).bind List.getLast? with
        | none => simp [combineLoop, combineLoopNF, hguard, hbind]
        | some lp =>
            obtain ⟨b, hfc, hbu, hbn⟩ := find_closest_spec lp segments used hc
              (exists_unused _ _ hguard)
            have hget : segments[b.idx]? = some segments[b.idx] :=
              List.getElem?_eq_getElem hbn
            have hrec := ih (segList ++ [dirCoords segments[b.idx] b.revFlag])
              (total + segments[b.idx].length) (b.idx :: used)
              (List.nodup_cons.mpr ⟨hbu, hnd⟩)
              (by rintro i hi
                  rcases List.mem_cons.mp hi with rfl | hi
                  exacts [hbn, hbd i hi])
            simp [combineLoop, combineLoopNF, hguard, hbind, hfc, hget, hrec]
      · simp [combineLoop, combineLoopNF, hguard]

/-- C9 (confirmed).  With all coordinates present (finite rationals here),
`find_closest_segment` returns a candidate whenever some segment index is
outside `used_indices`; consequently `combine_segments` coincides with the
variant whose "no match from the end" fallback branch (front-anchored
retry, prepend, and loop break) is removed — that branch is unreachable. -/
theorem find_closest_always_matches :
    (∀ (start : Point) (segments : List Segment) (used : List Nat),
        (∀ s ∈ segments, s.coordinates ≠ []) →
        (∃ i, i < segments.length ∧ i ∉ used) →
        ∃ b, find_closest_segment start segments used = some (some b)) ∧
    (∀ segments : List Segment, (∀ s ∈ segments, s.coordinates ≠ []) →
        combine_segments segments = combine_segments_noFallback segments) := by
  constructor
  · intro start segments used hc hu
    obtain ⟨b, hb, -, -⟩ := find_closest_spec start segments used hc hu
    exact ⟨b, hb⟩
  · intro segments hc
    match segments with
    | [] => rfl
    | [s] => rfl
    | s1 :: s2 :: rest =>
        exact combineLoop_eq_NF (s1 :: s2 :: rest) hc (s1 :: s2 :: rest).length
          [s1.coordinates] s1.length [0] (by simp) (by simp)

/-- Witness for C9 at concrete inputs. -/
theorem find_closest_always_matches_witness :
    (∃ b, find_closest_segment (0, 0) (oakSegs 1 2 4) [0] = some (some b)) ∧
    combine_segments (oakSegs 1 2 4) = combine_segments_noFallback (oakSegs 1 2 4) := by
  constructor
  · exact find_closest_always_matches.1 (0, 0) (oakSegs 1 2 4) [0]
      (by intro s hs
          simp only [oakSegs, List.mem_cons, List.not_mem_nil, or_false] at hs
          rcases hs with rfl | rfl | rfl <;> simp)
      ⟨1, by simp [oakSegs], by simp⟩
  · exact find_closest_always_matches.2 (oakSegs 1 2 4)
      (by intro s hs
          simp only [oakSegs, List.mem_cons, List.not_mem_nil, or_false] at hs
          rcases hs with rfl | rfl | rfl <;> simp)

/-! ## Lemmas on the two area-membership resolvers -/

/-- One step of the `add_areas_to_roads` fold. -/
theorem add_areas_to_road_cons (coords : List (List Point)) (initial : List PyStr)
    (a : PyStr × PolyRing) (rest : List (PyStr × PolyRing)) :
    add_areas_to_road coords initial (a :: rest) =
      add_areas_to_road coords
        (if check_road_in_area coords a.2 then
          if a.1 ∈ initial then initial else initial ++ [a.1]
        else initial) rest := by
  simp [add_areas_to_road]

/-- The fold only ever appends: existing entries survive. -/
theorem add_areas_mem_mono : ∀ (areas : List (PyStr × PolyRing)) (coords : List (List Point))
    (initial : List PyStr) (x : PyStr), x ∈ initial →
    x ∈ add_areas_to_road coords initial areas := by
  intro areas
  induction areas with
  | nil =>
      intro coords initial x hx
      simpa [add_areas_to_road] using hx
  | cons a rest ih =>
      intro coords initial x hx
      rw [add_areas_to_road_cons]
      apply ih
      by_cases h1 : check_road_in_area coords a.2 <;>
        by_cases h2 : a.1 ∈ initial <;> simp [h1, h2, hx]

/-- Every matching area name ends up in the road's list. -/
theorem add_areas_matching_mem : ∀ (areas : List (PyStr × PolyRing))
    (coords : List (List Point)) (initial : List PyStr) (nm : PyStr) (p : PolyRing),
    (nm, p) ∈ areas → check_road_in_area coords p = true →
    nm ∈ add_areas_to_road coords initial areas := by
  intro areas
  induction areas with
  | nil =>
      intro coords initial nm p h
      simp at h
  | cons a rest ih =>
      intro coords initial nm p hmem hchk
      rw [add_areas_to_road_cons]
      rcases List.mem_cons.mp hmem with heq | hmem'
      · subst heq
        apply add_areas_mem_mono
        by_cases h2 : nm ∈ initial <;> simp [hchk, h2]
      · exact ih coords _ nm p hmem' hchk

/-- If every matching name is already present, the fold is the identity:
this is the idempotence mechanism of `add_areas_to_roads`. -/
theorem add_areas_fixed : ∀ (areas : List (PyStr × PolyRing)) (coords : List (List Point))
    (initial : List PyStr),
    (∀ nm p, (nm, p) ∈ areas → check_road_in_area coords p = true → nm ∈ initial) →
    add_areas_to_road coords initial areas = initial := by
  intro areas
  induction areas with
  | nil => intro _ _ _; rfl
  | cons a rest ih =>
      intro coords initial h
      rw [add_areas_to_road_cons]
      have hstep : (if check_road_in_area coords a.2 then
          if a.1 ∈ initial then initial else initial ++ [a.1] else initial) = initial := by
        by_cases h1 : check_road_in_area coords a.2
        · have : a.1 ∈ initial := h a.1 a.2 (List.mem_cons_self _ _) h1
          simp [h1, this]
        · simp [h1]
      rw [hstep]
      exact ih coords initial fun nm p hm hc => h nm p (List.mem_cons_of_mem _ hm) hc

/-- The fold preserves freedom from duplicates (it guards every append with
a membership test). -/
theorem add_areas_nodup : ∀ (areas : List (PyStr × PolyRing)) (coords : List (List Point))
    (initial : List PyStr), initial.Nodup →
    (add_areas_to_road coords initial areas).Nodup := by
  intro areas
  induction areas with
  | nil => intro _ _ h; exact h
  | cons a rest ih =>
      intro coords initial h
      rw [add_areas_to_road_cons]
      apply ih
      by_cases h1 : check_road_in_area coords a.2
      · by_cases h2 : a.1 ∈ initial
        · simp [h1, h2, h]
        · simp [h1, h2, List.nodup_append, h]
      · simp [h1, h]

/-- C3 (amended).  Both resolvers deduplicate and are idempotent, but only
`get_areas_for_coordinates` sorts: (i) any successful
`get_areas_for_coordinates` result is duplicate-free and ascending;
(ii) `add_areas_to_roads` keeps a road's list duplicate-free; (iii) running
`add_areas_to_roads` a second time over the same polygons changes nothing.
Its output order, however, is the polygon mapping's iteration order, not
sorted order (see the counterexample). -/
theorem area_resolver_amended :
    (∀ (coords : List (List Point)) (areas : List (PyStr × Geometry)) (res : List PyStr),
        get_areas_for_coordinates coords areas = some res →
        res.Nodup ∧ List.Sorted (· ≤ ·) res) ∧
    (∀ (coords : List (List Point)) (initial : List PyStr)
        (areas : List (PyStr × PolyRing)),
        initial.Nodup → (add_areas_to_road coords initial areas).Nodup) ∧
    (∀ (coords : List (List Point)) (initial : List PyStr)
        (areas : List (PyStr × PolyRing)),
        add_areas_to_road coords (add_areas_to_road coords initial areas) areas =
          add_areas_to_road coords initial areas) := by
  refine ⟨?_, ?_, ?_⟩
  · intro coords areas res h
    obtain ⟨l, hl, rfl⟩ := Option.map_eq_some'.mp h
    exact ⟨((List.perm_insertionSort _ _).nodup_iff).mpr l.nodup_dedup,
      List.sorted_insertionSort _ _⟩
  · intro coords initial areas h
    exact add_areas_nodup areas coords initial h
  · intro coords initial areas
    exact add_areas_fixed areas coords _ fun nm p hm hc =>
      add_areas_matching_mem areas coords initial nm p hm hc

/-- Witness for C3's amended statement at concrete inputs. -/
theorem area_resolver_amended_witness :
    (([] : List PyStr).Nodup ∧ List.Sorted (· ≤ ·) ([] : List PyStr)) ∧
    (add_areas_to_road [[(1/2, 1/2)]] [] [(bName, unitSquare), (aName, unitSquare)]).Nodup ∧
    add_areas_to_road [[(1/2, 1/2)]]
        (add_areas_to_road [[(1/2, 1/2)]] [] [(bName, unitSquare), (aName, unitSquare)])
        [(bName, unitSquare), (aName, unitSquare)] =
      add_areas_to_road [[(1/2, 1/2)]] [] [(bName, unitSquare), (aName, unitSquare)] :=
  ⟨area_resolver_amended.1 [] [] [] rfl,
   area_resolver_amended.2.1 _ [] _ List.nodup_nil,
   area_resolver_amended.2.2 _ [] _⟩

/-! ## The hand-rolled ray casting vs. the shapely model

The two crossing rules differ per edge only in how they treat ray-height
endpoints: the source's `>` / `<=` rule counts an edge whose *upper*
endpoint sits on the ray, the strict rule one whose *lower* endpoint does.
For a point off the boundary, the per-edge difference is exactly the
indicator `vertexRay` at the edge's two endpoints; every vertex of a
closed ring bounds exactly two edges, so the differences cancel in pairs
and the two parities agree on any ring. -/

/-- Hoisting the accumulator out of an xor fold. -/
theorem foldl_xor_acc : ∀ (l : List Bool) (acc : Bool),
    l.foldl Bool.xor acc = Bool.xor acc (l.foldl Bool.xor false) := by
  intro l
  induction l with
  | nil => intro acc; simp
  | cons c l ih =>
      intro acc
      simp only [List.foldl_cons]
      rw [ih (Bool.xor acc c), ih (Bool.xor false c)]
      cases acc <;> cases c <;> simp

/-- Peeling one element off an xor sum. -/
theorem xorSum_cons (c : Bool) (l : List Bool) :
    xorSum (c :: l) = Bool.xor c (xorSum l) := by
  simp only [xorSum, List.foldl_cons]
  rw [foldl_xor_acc]
  cases c <;> simp

/-- Peeling the last element off an xor sum. -/
theorem xorSum_concat (l : List Bool) (c : Bool) :
    xorSum (l ++ [c]) = Bool.xor c (xorSum l) := by
  simp only [xorSum, List.foldl_append, List.foldl_cons, List.foldl_nil]
  exact Bool.xor_comm _ _

/-- The `inside = not inside` toggling fold of both ray casters is the xor
sum of the per-edge toggles. -/
theorem toggleFold_eq_xorSum (t : Point × Point → Bool) :
    ∀ (es : List (Point × Point)) (i : Bool),
    es.foldl (fun ins e => if t e then !ins else ins) i =
      Bool.xor i (xorSum (es.map t)) := by
  intro es
  induction es with
  | nil => intro i; simp [xorSum]
  | cons e es ih =>
      intro i
      simp only [List.foldl_cons, List.map_cons]
      rw [ih, xorSum_cons]
      cases hte : t e <;> cases i <;> simp

/-- An xor sum of pointwise xors splits. -/
theorem xorSum_map_xor (f g : Point × Point → Bool) :
    ∀ (l : List (Point × Point)),
    xorSum (l.map fun e => Bool.xor (f e) (g e)) =
      Bool.xor (xorSum (l.map f)) (xorSum (l.map g)) := by
  intro l
  induction l with
  | nil => simp [xorSum]
  | cons e l ih =>
      simp only [List.map_cons, xorSum_cons]
      rw [ih]
      cases f e <;> cases g e <;> cases xorSum (l.map f) <;> cases xorSum (l.map g) <;> rfl

/-- An xor sum over a zip splits into the sums over the two lists. -/
theorem xorSum_zip (f : Point → Bool) : ∀ (l1 l2 : List Point), l1.length = l2.length →
    xorSum ((l1.zip l2).map fun e => Bool.xor (f e.1) (f e.2)) =
      Bool.xor (xorSum (l1.map f)) (xorSum (l2.map f)) := by
  intro l1
  induction l1 with
  | nil =>
      intro l2 hl
      cases l2 with
      | nil => simp [xorSum]
      | cons b l2' => simp at hl
  | cons a l ih =>
      intro l2 hl
      cases l2 with
      | nil => simp at hl
      | cons b l2' =>
          simp only [List.zip_cons_cons, List.map_cons, xorSum_cons]
          rw [ih l2' (by simpa using hl)]
          cases f a <;> cases f b <;>
            cases xorSum (l.map f) <;> cases xorSum (l2'.map f) <;> rfl

/-- Moving the last element of a list to the front preserves its xor sum. -/
theorem xorSum_rotate (f : Point → Bool) (c0 : Point) (rest : List Point) :
    xorSum ((rest ++ [c0]).map f) = xorSum ((c0 :: rest).map f) := by
  rw [List.map_append, List.map_cons, List.map_nil, xorSum_concat, List.map_cons, xorSum_cons]

/-- Every ring vertex bounds exactly two of the ring's edges, so the
per-edge endpoint indicators cancel pairwise. -/
theorem vertex_sum_ring (pt c0 : Point) (rest : List Point) :
    xorSum ((ringEdges (c0 :: rest)).map
      (fun e => Bool.xor (vertexRay pt e.1) (vertexRay pt e.2))) = false := by
  have hre : ringEdges (c0 :: rest) = (c0 :: rest).zip (rest ++ [c0]) := rfl
  rw [hre, xorSum_zip (vertexRay pt) _ _ (by simp), xorSum_rotate, Bool.xor_self]

/-- Membership of a closed segment does not depend on its orientation. -/
theorem onSegmentB_comm (q a b : Point) : onSegmentB q a b = onSegmentB q b a := by
  simp only [onSegmentB]
  rw [decide_eq_decide]
  constructor <;> rintro ⟨h1, h2, h3, h4, h5⟩ <;>
    exact ⟨by linear_combination -h1, by rwa [min_comm], by rwa [max_comm],
      by rwa [min_comm], by rwa [max_comm]⟩

/-- An endpoint lies on its own segment. -/
theorem onSegmentB_left (a b : Point) : onSegmentB a a b = true := by
  simp only [onSegmentB, decide_eq_true_eq]
  exact ⟨by ring, min_le_left _ _, le_max_left _ _, min_le_left _ _, le_max_left _ _⟩

/-- The only point of a degenerate (single-vertex) segment is that vertex. -/
theorem onSegmentB_self (pt c : Point) (h : onSegmentB pt c c = true) : pt = c := by
  simp only [onSegmentB, decide_eq_true_eq] at h
  obtain ⟨-, h2, h3, h4, h5⟩ := h
  simp only [min_self, max_self] at h2 h3 h4 h5
  exact Prod.ext (le_antisymm h3 h2) (le_antisymm h5 h4)

/-- A degenerate edge never counts as a strict crossing. -/
theorem crossingToggle_self (pt c : Point) : crossingToggle pt c c = false := by
  simp [crossingToggle]

/-- The ray/edge intersection abscissa does not depend on the edge's
orientation. -/
theorem xInt_comm (pt a b : Point) (hy : a.2 ≠ b.2) :
    (pt.2 - a.2) * (b.1 - a.1) / (b.2 - a.2) + a.1 =
      (pt.2 - b.2) * (a.1 - b.1) / (a.2 - b.2) + b.1 := by
  have h1 : b.2 - a.2 ≠ 0 := sub_ne_zero.mpr (Ne.symm hy)
  have h2 : a.2 - b.2 ≠ 0 := sub_ne_zero.mpr hy
  field_simp
  ring

/-- The source's toggle rule does not depend on the edge's orientation. -/
theorem pipToggle_comm (pt a b : Point) : pipToggle pt a b = pipToggle pt b a := by
  by_cases hy : a.2 = b.2
  · have h1 : pipToggle pt a b = false := by
      simp only [pipToggle, decide_eq_false_iff_not]
      rintro ⟨-, -, -, hne, -⟩
      exact hne hy
    have h2 : pipToggle pt b a = false := by
      simp only [pipToggle, decide_eq_false_iff_not]
      rintro ⟨-, -, -, hne, -⟩
      exact hne hy.symm
    rw [h1, h2]
  · simp only [pipToggle]
    rw [decide_eq_decide]
    constructor
    · rintro ⟨h1, h2, h3, h4, h5⟩
      refine ⟨by rwa [min_comm], by rwa [max_comm], by rwa [max_comm], Ne.symm h4, ?_⟩
      rcases h5 with h5 | h5
      · exact Or.inl h5.symm
      · exact Or.inr (by rwa [xInt_comm pt a b hy] at h5)
    · rintro ⟨h1, h2, h3, h4, h5⟩
      refine ⟨by rwa [min_comm], by rwa [max_comm], by rwa [max_comm], Ne.symm h4, ?_⟩
      rcases h5 with h5 | h5
      · exact Or.inl h5.symm
      · exact Or.inr (by rwa [xInt_comm pt b a (Ne.symm hy)] at h5)

/-- The strict crossing rule does not depend on a non-horizontal edge's
orientation. -/
theorem crossingToggle_comm (pt a b : Point) (hy : a.2 ≠ b.2) :
    crossingToggle pt a b = crossingToggle pt b a := by
  simp only [crossingToggle]
  have hx : (b.1 - a.1) * (pt.2 - a.2) / (b.2 - a.2) + a.1 =
      (a.1 - b.1) * (pt.2 - b.2) / (a.2 - b.2) + b.1 := by
    have h1 : b.2 - a.2 ≠ 0 := sub_ne_zero.mpr (Ne.symm hy)
    have h2 : a.2 - b.2 ≠ 0 := sub_ne_zero.mpr hy
    field_simp
    ring
  rw [hx]
  cases hda : decide (pt.2 < a.2) <;> cases hdb : decide (pt.2 < b.2) <;> rfl
/-- The per-edge discrepancy between the two crossing rules, for a point
off the edge and an upward-sorted edge: it is exactly the xor of the
`vertexRay` indicators at the two endpoints. -/
theorem toggle_xor_edge_sorted (qx qy x1 y1 x2 y2 : ℚ) (hlt : y1 < y2)
    (hoff : onSegmentB (qx, qy) (x1, y1) (x2, y2) = false) :
    pipToggle (qx, qy) (x1, y1) (x2, y2) =
      Bool.xor (crossingToggle (qx, qy) (x1, y1) (x2, y2))
        (Bool.xor (vertexRay (qx, qy) (x1, y1)) (vertexRay (qx, qy) (x2, y2))) := by
  have hD : (0:ℚ) < y2 - y1 := by linarith
  have hDne : y2 - y1 ≠ 0 := ne_of_gt hD
  have hmin : min y1 y2 = y1 := min_eq_left hlt.le
  have hmax : max y1 y2 = y2 := max_eq_right hlt.le
  simp only [onSegmentB, decide_eq_false_iff_not] at hoff
  rcases lt_trichotomy qy y1 with hq1 | hq1 | hq1
  · have hpip : pipToggle (qx, qy) (x1, y1) (x2, y2) = false := by
      simp only [pipToggle, decide_eq_false_iff_not]
      rintro ⟨h1, -, -, -, -⟩
      rw [hmin] at h1
      linarith
    have hcross : crossingToggle (qx, qy) (x1, y1) (x2, y2) = false := by
      simp only [crossingToggle]
      rw [decide_eq_true hq1, decide_eq_true (show qy < y2 by linarith)]
      rfl
    have hv1 : vertexRay (qx, qy) (x1, y1) = false := by
      simp only [vertexRay, decide_eq_false_iff_not]
      rintro ⟨he, -⟩
      linarith
    have hv2 : vertexRay (qx, qy) (x2, y2) = false := by
      simp only [vertexRay, decide_eq_false_iff_not]
      rintro ⟨he, -⟩
      linarith
    rw [hpip, hcross, hv1, hv2]
    rfl
  · have hpip : pipToggle (qx, qy) (x1, y1) (x2, y2) = false := by
      simp only [pipToggle, decide_eq_false_iff_not]
      rintro ⟨h1, -, -, -, -⟩
      rw [hmin] at h1
      linarith
    have hxint : (x2 - x1) * (qy - y1) / (y2 - y1) + x1 = x1 := by
      rw [hq1]
      simp
    have hcross : crossingToggle (qx, qy) (x1, y1) (x2, y2) = decide (qx < x1) := by
      simp only [crossingToggle]
      rw [hxint, decide_eq_false (show ¬ qy < y1 by linarith),
        decide_eq_true (show qy < y2 by linarith)]
      rfl
    have hv1 : vertexRay (qx, qy) (x1, y1) = decide (qx < x1) := by
      simp only [vertexRay]
      rw [decide_eq_decide]
      constructor
      · rintro ⟨-, hh⟩
        exact hh
      · intro hh
        exact ⟨hq1.symm, hh⟩
    have hv2 : vertexRay (qx, qy) (x2, y2) = false := by
      simp only [vertexRay, decide_eq_false_iff_not]
      rintro ⟨he, -⟩
      linarith
    rw [hpip, hcross, hv1, hv2, Bool.xor_false, Bool.xor_self]
  · rcases lt_trichotomy qy y2 with hq2 | hq2 | hq2
    · -- y1 < qy < y2 : generic crossing
      set X := (x2 - x1) * (qy - y1) / (y2 - y1) + x1 with hX
      have hXe : (qy - y1) * (x2 - x1) / (y2 - y1) + x1 = X := by
        rw [hX]
        ring
      have hmul : (X - x1) * (y2 - y1) = (x2 - x1) * (qy - y1) := by
        rw [hX]
        field_simp
        try ring
      have hmul2 : (X - x2) * (y2 - y1) = (x2 - x1) * (qy - y2) := by
        rw [hX]
        field_simp
        try ring
      have hXlow : min x1 x2 ≤ X := by
        rcases le_total x1 x2 with hxx | hxx
        · rw [min_eq_left hxx]
          nlinarith [hmul, hD,
            mul_nonneg (show (0:ℚ) ≤ x2 - x1 by linarith) (show (0:ℚ) ≤ qy - y1 by linarith)]
        · rw [min_eq_right hxx]
          nlinarith [hmul2, hD,
            mul_nonneg (show (0:ℚ) ≤ x1 - x2 by linarith) (show (0:ℚ) ≤ y2 - qy by linarith)]
      have hXhigh : X ≤ max x1 x2 := by
        rcases le_total x1 x2 with hxx | hxx
        · rw [max_eq_right hxx]
          nlinarith [hmul2, hD,
            mul_nonneg (show (0:ℚ) ≤ x2 - x1 by linarith) (show (0:ℚ) ≤ y2 - qy by linarith)]
        · rw [max_eq_left hxx]
          nlinarith [hmul, hD,
            mul_nonneg (show (0:ℚ) ≤ x1 - x2 by linarith) (show (0:ℚ) ≤ qy - y1 by linarith)]
      have hne_int : qx ≠ X := by
        intro he
        apply hoff
        refine ⟨?_, ?_, ?_, ?_, ?_⟩
        · rw [he]
          linear_combination -hmul
        · rw [he]
          exact hXlow
        · rw [he]
          exact hXhigh
        · rw [hmin]
          linarith
        · rw [hmax]
          linarith
      have hpip : pipToggle (qx, qy) (x1, y1) (x2, y2) = decide (qx < X) := by
        simp only [pipToggle]
        rw [decide_eq_decide]
        constructor
        · rintro ⟨-, -, h3, -, h5⟩
          rcases h5 with h5 | h5
          · have hXx : X = x1 := by
              rw [hX, ← h5]
              simp
            rw [← h5, max_self] at h3
            rw [hXx]
            exact lt_of_le_of_ne h3 (by rw [← hXx] at h3 ⊢; exact hne_int)
          · rw [hXe] at h5
            exact lt_of_le_of_ne h5 hne_int
        · intro hq
          refine ⟨?_, ?_, le_trans hq.le hXhigh, ne_of_lt hlt, Or.inr ?_⟩
          · rw [hmin]
            exact hq1
          · rw [hmax]
            linarith
          · rw [hXe]
            exact hq.le
      have hcross : crossingToggle (qx, qy) (x1, y1) (x2, y2) = decide (qx < X) := by
        simp only [crossingToggle]
        rw [← hX, decide_eq_false (not_lt.mpr hq1.le), decide_eq_true hq2]
        rfl
      have hv1 : vertexRay (qx, qy) (x1, y1) = false := by
        simp only [vertexRay, decide_eq_false_iff_not]
        rintro ⟨he, -⟩
        linarith
      have hv2 : vertexRay (qx, qy) (x2, y2) = false := by
        simp only [vertexRay, decide_eq_false_iff_not]
        rintro ⟨he, -⟩
        linarith
      rw [hpip, hcross, hv1, hv2]
      simp
    · -- qy = y2 : top vertex on the ray height
      have hXtop : (qy - y1) * (x2 - x1) / (y2 - y1) + x1 = x2 := by
        rw [hq2]
        field_simp
        try ring
      have hne2 : qx ≠ x2 := by
        intro he
        apply hoff
        refine ⟨?_, ?_, ?_, ?_, ?_⟩
        · rw [he, hq2]
          ring
        · rw [he]
          exact min_le_right x1 x2
        · rw [he]
          exact le_max_right x1 x2
        · rw [hmin]
          linarith
        · rw [hmax]
          exact le_of_eq hq2
      have hpip : pipToggle (qx, qy) (x1, y1) (x2, y2) = decide (qx < x2) := by
        simp only [pipToggle]
        rw [decide_eq_decide]
        constructor
        · rintro ⟨-, -, h3, -, h5⟩
          rcases h5 with h5 | h5
          · rw [h5, max_self] at h3
            exact lt_of_le_of_ne h3 hne2
          · rw [hXtop] at h5
            exact lt_of_le_of_ne h5 hne2
        · intro hq
          refine ⟨?_, ?_, le_trans hq.le (le_max_right x1 x2), ne_of_lt hlt, Or.inr ?_⟩
          · rw [hmin]
            exact hq1
          · rw [hmax]
            exact le_of_eq hq2
          · rw [hXtop]
            exact hq.le
      have hcross : crossingToggle (qx, qy) (x1, y1) (x2, y2) = false := by
        simp only [crossingToggle]
        rw [decide_eq_false (not_lt.mpr hq1.le), decide_eq_false (not_lt.mpr hq2.ge)]
        rfl
      have hv1 : vertexRay (qx, qy) (x1, y1) = false := by
        simp only [vertexRay, decide_eq_false_iff_not]
        rintro ⟨he, -⟩
        linarith
      have hv2 : vertexRay (qx, qy) (x2, y2) = decide (qx < x2) := by
        simp only [vertexRay]
        rw [decide_eq_decide]
        constructor
        · rintro ⟨-, hh⟩
          exact hh
        · intro hh
          exact ⟨hq2.symm, hh⟩
      rw [hpip, hcross, hv1, hv2]
      simp
    · -- y2 < qy : above the edge
      have hpip : pipToggle (qx, qy) (x1, y1) (x2, y2) = false := by
        simp only [pipToggle, decide_eq_false_iff_not]
        rintro ⟨-, h2, -, -, -⟩
        rw [hmax] at h2
        linarith
      have hcross : crossingToggle (qx, qy) (x1, y1) (x2, y2) = false := by
        simp only [crossingToggle]
        rw [decide_eq_false (show ¬ qy < y1 by linarith),
          decide_eq_false (show ¬ qy < y2 by linarith)]
        rfl
      have hv1 : vertexRay (qx, qy) (x1, y1) = false := by
        simp only [vertexRay, decide_eq_false_iff_not]
        rintro ⟨he, -⟩
        linarith
      have hv2 : vertexRay (qx, qy) (x2, y2) = false := by
        simp only [vertexRay, decide_eq_false_iff_not]
        rintro ⟨he, -⟩
        linarith
      rw [hpip, hcross, hv1, hv2]
      rfl

/-- The per-edge discrepancy for an arbitrary edge off which the query
point lies: horizontal edges toggle neither rule, and a downward edge
reduces to the sorted case through the orientation lemmas. -/
theorem toggle_xor_edge (pt a b : Point) (hoff : onSegmentB pt a b = false) :
    pipToggle pt a b =
      Bool.xor (crossingToggle pt a b)
        (Bool.xor (vertexRay pt a) (vertexRay pt b)) := by
  obtain ⟨qx, qy⟩ := pt
  obtain ⟨x1, y1⟩ := a
  obtain ⟨x2, y2⟩ := b
  rcases lt_trichotomy y1 y2 with hy | hy | hy
  · exact toggle_xor_edge_sorted qx qy x1 y1 x2 y2 hy hoff
  · -- horizontal edge
    subst hy
    have hpip : pipToggle (qx, qy) (x1, y1) (x2, y1) = false := by
      simp only [pipToggle, decide_eq_false_iff_not]
      rintro ⟨-, -, -, hne, -⟩
      exact hne rfl
    have hcross : crossingToggle (qx, qy) (x1, y1) (x2, y1) = false := by
      simp only [crossingToggle]
      cases hd : decide (qy < y1) <;> rfl
    rw [hpip, hcross, Bool.false_xor]
    by_cases hqy : y1 = qy
    · simp only [onSegmentB, decide_eq_false_iff_not] at hoff
      have hxout : ¬ (min x1 x2 ≤ qx ∧ qx ≤ max x1 x2) := by
        rintro ⟨ha, hb⟩
        refine hoff ⟨by rw [← hqy]; ring, ha, hb, ?_, ?_⟩
        · rw [min_self, ← hqy]
        · rw [max_self, ← hqy]
      rcases not_and_or.mp hxout with hx | hx
      · have hq := lt_min_iff.mp (not_le.mp hx)
        have h1 : vertexRay (qx, qy) (x1, y1) = true :=
          decide_eq_true ⟨hqy, hq.1⟩
        have h2 : vertexRay (qx, qy) (x2, y1) = true :=
          decide_eq_true ⟨hqy, hq.2⟩
        rw [h1, h2]
        rfl
      · have hq := max_lt_iff.mp (not_le.mp hx)
        have h1 : vertexRay (qx, qy) (x1, y1) = false := by
          simp only [vertexRay, decide_eq_false_iff_not]
          rintro ⟨-, hh⟩
          exact absurd hh (not_lt.mpr hq.1.le)
        have h2 : vertexRay (qx, qy) (x2, y1) = false := by
          simp only [vertexRay, decide_eq_false_iff_not]
          rintro ⟨-, hh⟩
          exact absurd hh (not_lt.mpr hq.2.le)
        rw [h1, h2]
        rfl
    · have h1 : vertexRay (qx, qy) (x1, y1) = false := by
        simp only [vertexRay, decide_eq_false_iff_not]
        rintro ⟨he, -⟩
        exact hqy he
      have h2 : vertexRay (qx, qy) (x2, y1) = false := by
        simp only [vertexRay, decide_eq_false_iff_not]
        rintro ⟨he, -⟩
        exact hqy he
      rw [h1, h2]
      rfl
  · -- reversed orientation: use the symmetry of every ingredient
    have hoff' : onSegmentB (qx, qy) (x2, y2) (x1, y1) = false := by
      rw [onSegmentB_comm] at hoff
      exact hoff
    have hsym := toggle_xor_edge_sorted qx qy x2 y2 x1 y1 hy hoff'
    have hyne : ((x1, y1) : Point).2 ≠ ((x2, y2) : Point).2 := ne_of_gt hy
    calc pipToggle (qx, qy) (x1, y1) (x2, y2)
        = pipToggle (qx, qy) (x2, y2) (x1, y1) := pipToggle_comm _ _ _
      _ = Bool.xor (crossingToggle (qx, qy) (x2, y2) (x1, y1))
            (Bool.xor (vertexRay (qx, qy) (x2, y2)) (vertexRay (qx, qy) (x1, y1))) := hsym
      _ = Bool.xor (crossingToggle (qx, qy) (x1, y1) (x2, y2))
            (Bool.xor (vertexRay (qx, qy) (x1, y1)) (vertexRay (qx, qy) (x2, y2))) := by
          rw [crossingToggle_comm _ _ _ (Ne.symm hyne), Bool.xor_comm (vertexRay _ _)]


/-- Membership of the bottom edge of the unit square. -/
theorem onSeg_bottom (x y : ℚ) :
    onSegmentB (x, y) (0, 0) (1, 0) = true ↔ (y = 0 ∧ 0 ≤ x ∧ x ≤ 1) := by
  simp only [onSegmentB, decide_eq_true_eq]
  norm_num [min_def, max_def]
  intro h1 h2 h3
  constructor <;> linarith

/-- Membership of the right edge of the unit square. -/
theorem onSeg_right (x y : ℚ) :
    onSegmentB (x, y) (1, 0) (1, 1) = true ↔ (x = 1 ∧ 0 ≤ y ∧ y ≤ 1) := by
  simp only [onSegmentB, decide_eq_true_eq]
  norm_num [min_def, max_def]
  constructor
  · rintro ⟨h1, h2, h3, h4, h5⟩
    exact ⟨by linarith, h4, h5⟩
  · rintro ⟨h1, h2, h3⟩
    exact ⟨by linarith, by linarith, by linarith, h2, h3⟩

/-- Membership of the top edge of the unit square. -/
theorem onSeg_top (x y : ℚ) :
    onSegmentB (x, y) (1, 1) (0, 1) = true ↔ (y = 1 ∧ 0 ≤ x ∧ x ≤ 1) := by
  simp only [onSegmentB, decide_eq_true_eq]
  norm_num [min_def, max_def]
  constructor
  · rintro ⟨h1, h2, h3, -, -⟩
    exact ⟨by linarith, h2, h3⟩
  · rintro ⟨h1, h2, h3⟩
    exact ⟨by linarith, h2, h3, by linarith, by linarith⟩

/-- Membership of the left edge of the unit square. -/
theorem onSeg_left (x y : ℚ) :
    onSegmentB (x, y) (0, 1) (0, 0) = true ↔ (x = 0 ∧ 0 ≤ y ∧ y ≤ 1) := by
  simp only [onSegmentB, decide_eq_true_eq]
  norm_num [min_def, max_def]
  intro h1
  subst h1
  norm_num

/-- Closed form of the unit square's boundary. -/
theorem bdry_unitSquare (x y : ℚ) :
    onBoundary (x, y) unitSquare = true ↔
      ((y = 0 ∧ 0 ≤ x ∧ x ≤ 1) ∨ (x = 1 ∧ 0 ≤ y ∧ y ≤ 1) ∨
       (y = 1 ∧ 0 ≤ x ∧ x ≤ 1) ∨ (x = 0 ∧ 0 ≤ y ∧ y ≤ 1)) := by
  simp only [onBoundary, ringEdges, unitSquare, List.cons_append, List.nil_append,
    List.zip_cons_cons, List.zip_nil_right, List.any_cons, List.any_nil,
    Bool.or_eq_true, Bool.false_eq_true, or_false,
    onSeg_bottom, onSeg_right, onSeg_top, onSeg_left]

/-- C4 (amended).  Away from the polygon boundary the two code paths
agree: for every nonempty ring and every rational point not on its
boundary, the hand-rolled `point_in_polygon` and the shapely `contains`
model classify the point identically.  On the boundary they can differ
(see the counterexample), so the two paths are interchangeable exactly
for boundary-free road coordinates. -/
theorem pip_shapely_agree_off_boundary (pt : Point) (ring : PolyRing)
    (hne : ring ≠ []) (h : onBoundary pt ring = false) :
    point_in_polygon pt ring = some (shapely_contains pt ring) := by
  match ring, hne with
  | c0 :: rest, _ =>
    have hedges : ∀ e ∈ ringEdges (c0 :: rest), onSegmentB pt e.1 e.2 = false := by
      intro e he
      rcases Bool.eq_false_or_eq_true (onSegmentB pt e.1 e.2) with hb | hb
      swap
      · exact hb
      · exfalso
        have ht : onBoundary pt (c0 :: rest) = true := by
          simp only [onBoundary, List.any_eq_true]
          exact ⟨e, he, hb⟩
        rw [ht] at h
        simp at h
    have hdeg : onSegmentB pt c0 c0 = false := by
      rcases Bool.eq_false_or_eq_true (onSegmentB pt c0 c0) with hb | hb
      swap
      · exact hb
      · exfalso
        have hpt : pt = c0 := onSegmentB_self pt c0 hb
        have ht : onBoundary pt (c0 :: rest) = true := by
          cases rest with
          | nil => simp [onBoundary, ringEdges, hb]
          | cons r rs =>
              have h1 : onSegmentB pt c0 r = true := by
                rw [hpt]
                exact onSegmentB_left c0 r
              simp [onBoundary, ringEdges, h1]
        rw [ht] at h
        simp at h
    have hzip : (c0 :: c0 :: rest).zip ((c0 :: rest) ++ [c0]) =
        (c0, c0) :: ringEdges (c0 :: rest) := by
      simp [ringEdges]
    have hpip : point_in_polygon pt (c0 :: rest) =
        some (xorSum (((c0, c0) :: ringEdges (c0 :: rest)).map
          (fun e => pipToggle pt e.1 e.2))) := by
      simp only [point_in_polygon, hzip]
      rw [toggleFold_eq_xorSum, Bool.false_xor]
    have hmapcong : ((c0, c0) :: ringEdges (c0 :: rest)).map
          (fun e => pipToggle pt e.1 e.2) =
        ((c0, c0) :: ringEdges (c0 :: rest)).map
          (fun e => Bool.xor (crossingToggle pt e.1 e.2)
            (Bool.xor (vertexRay pt e.1) (vertexRay pt e.2))) := by
      apply List.map_congr_left
      intro e he
      rcases List.mem_cons.mp he with rfl | he'
      · exact toggle_xor_edge pt c0 c0 hdeg
      · exact toggle_xor_edge pt e.1 e.2 (hedges e he')
    have hstrict : raycastStrict pt (c0 :: rest) =
        xorSum ((ringEdges (c0 :: rest)).map (fun e => crossingToggle pt e.1 e.2)) := by
      simp only [raycastStrict]
      rw [toggleFold_eq_xorSum, Bool.false_xor]
    rw [hpip, hmapcong, xorSum_map_xor]
    rw [List.map_cons, xorSum_cons, crossingToggle_self, Bool.false_xor]
    rw [List.map_cons, xorSum_cons, Bool.xor_self, Bool.false_xor]
    rw [vertex_sum_ring, Bool.xor_false]
    rw [← hstrict]
    simp [shapely_contains, h]

/-- Witness for C4 at the unit-square ring and the off-boundary point
`(5, 5)`. -/
theorem pip_shapely_agree_off_boundary_witness :
    point_in_polygon (5, 5) unitSquare = some (shapely_contains (5, 5) unitSquare) := by
  refine pip_shapely_agree_off_boundary (5, 5) unitSquare (by simp [unitSquare]) ?_
  have hb := bdry_unitSquare 5 5
  cases hbool : onBoundary (5, 5) unitSquare with
  | false => rfl
  | true => exact absurd (hb.mp hbool) (by norm_num)
